import Mathlib

/-!
Verification of the corridor-toolkit linear-referencing core
(`src/chainage.py`, `src/annotate.py`, `src/geometry.py`).

Distances are embedded as rationals (`ℚ`); Python machine floats at the
inputs the claims exercise are exactly representable or round identically,
so the rational model is faithful there.  Strings are embedded as Lean
`String`/`List Char`; Python `round` (round-half-to-even on the real value)
is embedded as `pyRound`.
-/

namespace Corridor

/-- Python's built-in `round` to an integer: round half to even
(banker's rounding).  `round(5250.5) = 5250`, `round(1.5) = 2`,
`round(-0.5) = 0`. -/
def pyRound (q : ℚ) : ℤ :=
  if q - ⌊q⌋ < 1/2 then ⌊q⌋
  else if 1/2 < q - ⌊q⌋ then ⌊q⌋ + 1
  else if ⌊q⌋ % 2 = 0 then ⌊q⌋ else ⌊q⌋ + 1

/-- The ASCII digit character for `d < 10`. -/
def digitChar (d : ℕ) : Char := Char.ofNat (48 + d)

/-- Structural worker for `natDigits`; the first argument is fuel that is
always at least the value being rendered, so the fallback arm is never
reached on `natDigits`'s call pattern. -/
def natDigitsAux : ℕ → ℕ → List Char
  | 0, n => [digitChar n]
  | fuel + 1, n =>
      if n < 10 then [digitChar n]
      else natDigitsAux fuel (n / 10) ++ [digitChar (n % 10)]

/-- Decimal digit string (most significant first) of a natural number,
as produced by Python's `f"{n}"` for `n ≥ 0`. -/
def natDigits (n : ℕ) : List Char := natDigitsAux n n

/-- Python's `f"{n:03d}"` for a non-negative value: the decimal digits
left-padded with zeros to width 3. -/
def pad3 (n : ℕ) : List Char :=
  List.replicate (3 - (natDigits n).length) '0' ++ natDigits n

/-- Decimal rendering of an integer, as Python's `f"{z}"`. -/
def intDigits (z : ℤ) : List Char :=
  if z < 0 then '-' :: natDigits z.natAbs else natDigits z.toNat

/-- `format_chainage` (src/chainage.py:63-64):
`km, rest = divmod(int(round(distance_m)), 1000)` followed by
`f"K{km}+{rest:03d}"`.  Python `divmod` by the positive constant 1000 is
floor division with remainder in `[0, 1000)`, i.e. `Int.ediv`/`Int.emod`. -/
def format_chainage (distance_m : ℚ) : String :=
  String.mk ('K' :: (intDigits (Int.ediv (pyRound distance_m) 1000)
    ++ '+' :: pad3 (Int.emod (pyRound distance_m) 1000).toNat))

/-- One step of accumulating decimal parsing: `digitsVal cs a` consumes the
characters of `cs`, failing on the first non-digit. -/
def digitsVal : List Char → ℕ → Option ℕ
  | [], acc => some acc
  | c :: cs, acc =>
      if c.isDigit then digitsVal cs (10 * acc + (c.toNat - 48)) else none

/-- Value of a non-empty all-digit character sequence (leading zeros allowed),
as accepted by Python's `int`. -/
def digitsToNat (cs : List Char) : Option ℕ :=
  if cs.isEmpty then none else digitsVal cs 0

/-- Python's `int(str)` restricted to the shapes the chainage labels exercise:
an optional leading minus sign followed by one or more decimal digits.
(Python `int` additionally strips whitespace and allows `+`/underscores;
none of those shapes can reach `parse_chainage`'s call sites in the claims.) -/
def pyInt (cs : List Char) : Option ℤ :=
  match cs with
  | [] => none
  | c :: rest =>
      if c = '-' then (digitsToNat rest).map (fun n => -(n : ℤ))
      else (digitsToNat (c :: rest)).map (fun n => (n : ℤ))

/-- Python's `str.split("+")`: splits on every `'+'`, keeping empty pieces;
the empty string yields one empty piece. -/
def splitPlus : List Char → List (List Char)
  | [] => [[]]
  | c :: cs =>
      if c = '+' then [] :: splitPlus cs
      else (c :: (splitPlus cs).headD []) :: (splitPlus cs).tail

/-- `parse_chainage` (src/chainage.py:88-95):
`parts = label.upper().replace("K", "").split("+")`, then
`float(int(parts[0]) * 1000 + int(parts[1]))`; an `IndexError` or
`ValueError` becomes the "Invalid chainage format" error, here `none`.
Note the code removes every `K`/`k` anywhere in the label and silently
ignores parts beyond the second. -/
def parse_chainage (label : String) : Option ℚ :=
  let cs := (label.data.map Char.toUpper).filter (fun c => c ≠ 'K')
  let parts := splitPlus cs
  match parts[0]?, parts[1]? with
  | some p0, some p1 =>
      match pyInt p0, pyInt p1 with
      | some km, some rest => some (((km * 1000 + rest : ℤ) : ℚ))
      | _, _ => none
  | _, _ => none

/-! ### Marker generation (`generate_chainage_points`) -/

/-- The `while distance <= total_length` loop of `generate_chainage_points`
(src/chainage.py:180-190), with explicit fuel: `none` means the loop has not
finished within `fuel` iterations (so `∀ fuel, ... = none` is
non-termination).  The source emits
`(line.interpolate(distance), distance, format_chainage(distance))`; the
emitted distance sequence is determined by `total_length = line.length`,
`interval_m` and the running `distance` (started at `start_m`), which is
what this models.  The function performs no validation of `interval_m`. -/
def genDistances (total_length interval_m : ℚ) : ℚ → ℕ → Option (List ℚ)
  | _, 0 => none
  | distance, fuel + 1 =>
      if distance ≤ total_length then
        (genDistances total_length interval_m (distance + interval_m) fuel).map
          (fun rest => distance :: rest)
      else some []

/-- Number of markers the loop emits for a positive interval. -/
def numMarkers (L i s : ℚ) : ℕ :=
  if s ≤ L then (⌊(L - s) / i⌋).toNat + 1 else 0

/-- Closed form of the emitted distance list:
`s, s + i, s + 2*i, …` while `≤ L`. -/
def markerList (L i s : ℚ) : List ℚ :=
  (List.range (numMarkers L i s)).map (fun k : ℕ => s + (k : ℚ) * i)

/-! ### Feature annotation: name fallback (`annotate_to_axis`) -/

/-- The three states the `name_field` cell of a feature row can be in:
the column is absent (`row.get` returns its default), present but null
(`None` or `NaN`, both detected by `pd.isna`), or present with a string
value. -/
inductive NameVal
  | missing
  | null
  | str (s : String)

/-- Name resolution of `annotate_to_axis` (src/annotate.py:101-104):
`name = row.get(name_field, "sin_nombre")` followed by
`if pd.isna(name): name = "sin_nombre"`.  A non-null string value passes
through unchanged — including the empty string, for which
`pd.isna("") == False`. -/
def resolveName : NameVal → String
  | NameVal.missing => "sin_nombre"
  | NameVal.null => "sin_nombre"
  | NameVal.str s => s

/-- The `nombre` column of the records `annotate_to_axis` produces for a
batch of rows with the given name cells (one record per row, in input
order). -/
def annotateNames (names : List NameVal) : List String :=
  names.map resolveName

/-! ### Sorting by chainage (`sort_by_chainage`) -/

/-- One annotated record as far as sorting is concerned: its `abscisa_m`
key and a tag standing for the rest of the row (used to observe the order
of ties). -/
structure Row where
  chainage : ℚ
  tag : ℕ

/-- Modelled from the pandas contract of the call in `sort_by_chainage`
(src/annotate.py:183): `gdf.sort_values(chainage_col)` with the default
`kind='quicksort'` returns some permutation of the rows ordered ascending
by the key; pandas documents that only `'mergesort'`/`'stable'` are
stable, so the relative order of tied rows is unspecified.
`reset_index(drop=True)` renumbers rows `0,1,2,…` in result order, which
list position models. -/
def SortValuesResult (inp outp : List Row) : Prop :=
  outp.Perm inp ∧ outp.Chain' (fun a b => a.chainage ≤ b.chainage)

/-! ### Geometry: line normalization (`to_single_line`) -/

/-- A planar point with rational coordinates. -/
structure Pt where
  x : ℚ
  y : ℚ
deriving DecidableEq

/-- The geometry kinds `to_single_line` can receive, by `geom_type`:
a line carries its vertex list, a multi-part line carries one vertex list
per part. -/
inductive Geom
  | point (p : Pt)
  | line (vertices : List Pt)
  | multiLine (parts : List (List Pt))
  | polygon (vertices : List Pt)

/-- Modelled from the spec: `shapely.ops.linemerge` (external library, not
in this repository) as §4.3 describes it — "if the parts chain end-to-end
into one continuous path, return the merged single line preserving vertex
order"; otherwise the result stays multi-part (`none` here), triggering
the caller's fallback.  Parts chain when each part's last vertex is the
next part's first vertex; the shared vertex appears once in the merge. -/
def chainMerge : List (List Pt) → Option (List Pt)
  | [] => none
  | [p] => some p
  | p :: q :: rest =>
      if p.getLast? = q.head? then chainMerge ((p ++ q.tail) :: rest)
      else none
  termination_by parts => parts.length

/-- `to_single_line` (src/geometry.py:51-64): a `LineString` is returned
unchanged; a `MultiLineString` is `linemerge`d and, when the merge does
not produce a single line, all parts' coordinates are concatenated in
order; any other geometry kind raises `TypeError`. -/
def to_single_line : Geom → Except String (List Pt)
  | Geom.line vs => Except.ok vs
  | Geom.multiLine parts =>
      match chainMerge parts with
      | some merged => Except.ok merged
      | none => Except.ok parts.flatten
  | Geom.point _ => Except.error "TypeError"
  | Geom.polygon _ => Except.error "TypeError"

/-! ### Geometry: projection onto the alignment (`project_point_to_line`) -/

/-- One straight segment of the alignment polyline. -/
structure Seg where
  a : Pt
  b : Pt

/-- The consecutive segments of a vertex list. -/
def segsOf (vs : List Pt) : List Seg := List.zipWith Seg.mk vs vs.tail

/-- Squared Euclidean length of a segment. -/
def segLenSq (s : Seg) : ℚ := (s.b.x - s.a.x)^2 + (s.b.y - s.a.y)^2

/-- Modelled from the spec (§4.2) description of the external geometry
library's `line.project` (not part of this repository): the scalar
parameter of the orthogonal projection of `p` onto the segment's line,
clamped to `[0, 1]`; a degenerate segment yields `0`. -/
def clampParam (s : Seg) (p : Pt) : ℚ :=
  if segLenSq s = 0 then 0
  else max 0 (min 1 (((p.x - s.a.x) * (s.b.x - s.a.x)
      + (p.y - s.a.y) * (s.b.y - s.a.y)) / segLenSq s))

/-- The point of the segment at clamped parameter `t`. -/
def segPointAt (s : Seg) (t : ℚ) : Pt :=
  ⟨s.a.x + t * (s.b.x - s.a.x), s.a.y + t * (s.b.y - s.a.y)⟩

/-- Squared distance from `p` to its nearest point on the segment. -/
def distSqTo (s : Seg) (p : Pt) : ℚ :=
  (p.x - (segPointAt s (clampParam s p)).x)^2
    + (p.y - (segPointAt s (clampParam s p)).y)^2

/-- Index of the minimum of a list of values, first occurrence winning
ties (the per-segment sweep keeps the first global minimum). -/
def idxOfMin : List ℚ → ℕ
  | [] => 0
  | [_] => 0
  | v :: w :: rest =>
      if v ≤ (w :: rest).getD (idxOfMin (w :: rest)) 0 then 0
      else idxOfMin (w :: rest) + 1

/-- The segment the sweep selects: the first one at minimal distance. -/
def bestIdx (segs : List Seg) (p : Pt) : ℕ :=
  idxOfMin (segs.map (fun s => distSqTo s p))

/-- The clamped parameter on the selected segment. -/
def bestT (segs : List Seg) (p : Pt) : ℚ :=
  clampParam (segs.getD (bestIdx segs p) ⟨p, p⟩) p

/-! ### Evaluation lemmas for `pyRound`

Core `Rat` arithmetic does not reduce in the kernel, so concrete values of
`pyRound` are established through these characterizations with `norm_num`
discharging the rational side conditions. -/

theorem pyRound_eq_of_lt_half (q : ℚ) (f : ℤ) (h1 : (f : ℚ) ≤ q)
    (h2 : q < f + 1/2) : pyRound q = f := by
  have hf : ⌊q⌋ = f := by
    rw [Int.floor_eq_iff]
    constructor
    · exact h1
    · have : (1:ℚ)/2 < 1 := by norm_num
      linarith
  unfold pyRound
  rw [hf, if_pos (show q - (f : ℚ) < 1/2 by linarith)]

theorem pyRound_eq_of_gt_half (q : ℚ) (f : ℤ) (h1 : (f : ℚ) + 1/2 < q)
    (h2 : q < f + 1) : pyRound q = f + 1 := by
  have hf : ⌊q⌋ = f := by
    rw [Int.floor_eq_iff]
    constructor
    · have : (0:ℚ) < 1/2 := by norm_num
      linarith
    · linarith
  have h3 : ¬ (q - (f : ℚ) < 1/2) := by push_neg; linarith
  have h4 : (1:ℚ)/2 < q - (f : ℚ) := by linarith
  unfold pyRound
  rw [hf, if_neg h3, if_pos h4]

theorem pyRound_tie (q : ℚ) (f : ℤ) (h : q = (f : ℚ) + 1/2) :
    pyRound q = if f % 2 = 0 then f else f + 1 := by
  have hf : ⌊q⌋ = f := by
    rw [Int.floor_eq_iff]
    refine ⟨by rw [h]; norm_num, ?_⟩
    rw [h]; norm_num
  have h1 : ¬ (q - (f : ℚ) < 1/2) := by rw [h]; norm_num
  have h2 : ¬ ((1:ℚ)/2 < q - (f : ℚ)) := by rw [h]; norm_num
  unfold pyRound
  rw [hf, if_neg h1, if_neg h2]

theorem pyRound_intCast (n : ℤ) : pyRound ((n : ℤ) : ℚ) = n := by
  apply pyRound_eq_of_lt_half
  · exact le_refl _
  · norm_num

theorem pyRound_nonneg (q : ℚ) (h : 0 ≤ q) : 0 ≤ pyRound q := by
  have hf : (0 : ℤ) ≤ ⌊q⌋ := Int.le_floor.mpr (by exact_mod_cast h)
  unfold pyRound
  split
  · exact hf
  · split
    · omega
    · split
      · exact hf
      · omega

/-! ### Decimal digit strings: rendering and re-parsing -/

theorem natDigitsAux_mem (fuel : ℕ) : ∀ n, n ≤ fuel →
    ∀ c ∈ natDigitsAux fuel n, ∃ d, d < 10 ∧ c = digitChar d := by
  induction fuel with
  | zero =>
      intro n hn c hc
      have : n = 0 := by omega
      subst this
      simp only [natDigitsAux, List.mem_singleton] at hc
      exact ⟨0, by omega, hc⟩
  | succ fuel ih =>
      intro n hn c hc
      by_cases h10 : n < 10
      · simp only [natDigitsAux, if_pos h10, List.mem_singleton] at hc
        exact ⟨n, h10, hc⟩
      · simp only [natDigitsAux, if_neg h10, List.mem_append,
          List.mem_singleton] at hc
        rcases hc with hc | hc
        · exact ih (n / 10) (by omega) c hc
        · exact ⟨n % 10, by omega, hc⟩

theorem natDigits_mem (n : ℕ) :
    ∀ c ∈ natDigits n, ∃ d, d < 10 ∧ c = digitChar d :=
  natDigitsAux_mem n n (le_refl n)

theorem natDigitsAux_ne_nil (fuel n : ℕ) : natDigitsAux fuel n ≠ [] := by
  cases fuel with
  | zero => simp [natDigitsAux]
  | succ fuel =>
      by_cases h10 : n < 10
      · simp [natDigitsAux, if_pos h10]
      · simp [natDigitsAux, if_neg h10]

theorem natDigits_ne_nil (n : ℕ) : natDigits n ≠ [] :=
  natDigitsAux_ne_nil n n

theorem digitChar_isDigit (d : ℕ) (h : d < 10) :
    (digitChar d).isDigit = true := by
  interval_cases d <;> decide

theorem digitChar_toNat (d : ℕ) (h : d < 10) :
    (digitChar d).toNat - 48 = d := by
  interval_cases d <;> decide

theorem digitChar_toUpper (d : ℕ) (h : d < 10) :
    (digitChar d).toUpper = digitChar d := by
  interval_cases d <;> decide

theorem digitChar_ne_K (d : ℕ) (h : d < 10) : digitChar d ≠ 'K' := by
  interval_cases d <;> decide

theorem digitChar_ne_plus (d : ℕ) (h : d < 10) : digitChar d ≠ '+' := by
  interval_cases d <;> decide

theorem digitChar_ne_dash (d : ℕ) (h : d < 10) : digitChar d ≠ '-' := by
  interval_cases d <;> decide

theorem digitsVal_append (xs ys : List Char) : ∀ a,
    digitsVal (xs ++ ys) a = (digitsVal xs a).bind (fun b => digitsVal ys b) := by
  induction xs with
  | nil => intro a; simp [digitsVal]
  | cons c cs ih =>
      intro a
      by_cases hc : c.isDigit
      · simp only [List.cons_append, digitsVal, if_pos hc]
        exact ih _
      · simp only [List.cons_append, digitsVal, if_neg hc, Option.none_bind]

theorem digitsVal_natDigitsAux (fuel : ℕ) : ∀ n a, n ≤ fuel →
    digitsVal (natDigitsAux fuel n) a =
      some (a * 10 ^ (natDigitsAux fuel n).length + n) := by
  induction fuel with
  | zero =>
      intro n a hn
      have : n = 0 := by omega
      subst this
      simp only [natDigitsAux, digitsVal, digitChar_isDigit 0 (by omega),
        digitChar_toNat 0 (by omega), if_pos, List.length_cons,
        List.length_nil, pow_one, Option.some.injEq]
      ring
  | succ fuel ih =>
      intro n a hn
      by_cases h10 : n < 10
      · simp [natDigitsAux, if_pos h10, digitsVal, digitChar_isDigit n h10,
          digitChar_toNat n h10, Nat.mul_comm]
      · have hrec : n / 10 ≤ fuel := by
          have := Nat.div_lt_self (by omega : 0 < n) (by omega : 1 < 10)
          omega
        simp only [natDigitsAux, if_neg h10, digitsVal_append,
          ih (n / 10) a hrec, Option.some_bind, digitsVal,
          digitChar_isDigit (n % 10) (by omega),
          digitChar_toNat (n % 10) (by omega), if_pos,
          List.length_append, List.length_cons, List.length_nil,
          Option.some.injEq]
        rw [pow_succ, ← Nat.mul_assoc]
        set X := a * 10 ^ (natDigitsAux fuel (n / 10)).length with hX
        omega

theorem digitsVal_natDigits (n : ℕ) :
    digitsVal (natDigits n) 0 = some n := by
  have := digitsVal_natDigitsAux n n 0 (le_refl n)
  simpa using this

theorem digitsToNat_natDigits (n : ℕ) : digitsToNat (natDigits n) = some n := by
  unfold digitsToNat
  rw [if_neg (by simp [List.isEmpty_iff, natDigits_ne_nil n])]
  exact digitsVal_natDigits n

theorem digitsVal_replicate_zero (k : ℕ) :
    digitsVal (List.replicate k '0') 0 = some 0 := by
  induction k with
  | zero => simp [digitsVal]
  | succ k ih => simpa [List.replicate_succ, digitsVal] using ih

theorem digitsToNat_pad3 (n : ℕ) : digitsToNat (pad3 n) = some n := by
  unfold digitsToNat pad3
  rw [if_neg (by simp [List.isEmpty_iff, natDigits_ne_nil n])]
  rw [digitsVal_append]
  rw [digitsVal_replicate_zero]
  simpa using digitsVal_natDigits n

theorem pad3_mem (n : ℕ) :
    ∀ c ∈ pad3 n, ∃ d, d < 10 ∧ c = digitChar d := by
  intro c hc
  unfold pad3 at hc
  rw [List.mem_append] at hc
  rcases hc with hc | hc
  · have : c = '0' := List.eq_of_mem_replicate hc
    exact ⟨0, by omega, by rw [this]; rfl⟩
  · exact natDigits_mem n c hc

theorem pyInt_of_digits (cs : List Char) (m : ℕ) (hne : cs ≠ [])
    (hd : ∀ c ∈ cs, ∃ d, d < 10 ∧ c = digitChar d)
    (hv : digitsToNat cs = some m) : pyInt cs = some (m : ℤ) := by
  cases cs with
  | nil => exact absurd rfl hne
  | cons c rest =>
      obtain ⟨d, hd10, hcd⟩ := hd c (List.mem_cons_self c rest)
      have hdash : c ≠ '-' := by rw [hcd]; exact digitChar_ne_dash d hd10
      simp only [pyInt, if_neg hdash, hv]
      rfl

/-! ### `split("+")` -/

theorem splitPlus_ne_nil (cs : List Char) : splitPlus cs ≠ [] := by
  cases cs with
  | nil => simp [splitPlus]
  | cons c cs =>
      by_cases hc : c = '+'
      · simp [splitPlus, if_pos hc]
      · simp [splitPlus, if_neg hc]

theorem splitPlus_no_plus (cs : List Char) (h : '+' ∉ cs) :
    splitPlus cs = [cs] := by
  induction cs with
  | nil => rfl
  | cons c cs ih =>
      have hc : c ≠ '+' := fun hcp => h (hcp ▸ List.mem_cons_self c cs)
      have hcs : '+' ∉ cs := fun hm => h (List.mem_cons_of_mem c hm)
      simp only [splitPlus, if_neg hc, ih hcs, List.headD_cons,
        List.tail_cons]

theorem splitPlus_append (xs ys : List Char) (h : '+' ∉ xs) :
    splitPlus (xs ++ '+' :: ys) = xs :: splitPlus ys := by
  induction xs with
  | nil => simp [splitPlus]
  | cons c cs ih =>
      have hc : c ≠ '+' := fun hcp => h (hcp ▸ List.mem_cons_self c cs)
      have hcs : '+' ∉ cs := fun hm => h (List.mem_cons_of_mem c hm)
      simp only [List.cons_append, splitPlus, if_neg hc, List.append_eq,
        ih hcs, List.headD_cons, List.tail_cons]

/-! ### The parse/format pipeline -/

theorem map_toUpper_of_digits (cs : List Char)
    (h : ∀ c ∈ cs, ∃ d, d < 10 ∧ c = digitChar d) :
    cs.map Char.toUpper = cs := by
  induction cs with
  | nil => rfl
  | cons c cs ih =>
      obtain ⟨d, hd, hcd⟩ := h c (List.mem_cons_self c cs)
      rw [List.map_cons, ih (fun x hx => h x (List.mem_cons_of_mem c hx)),
        hcd, digitChar_toUpper d hd]

theorem filter_ne_K_of_digits (cs : List Char)
    (h : ∀ c ∈ cs, ∃ d, d < 10 ∧ c = digitChar d) :
    cs.filter (fun c => c ≠ 'K') = cs := by
  apply List.filter_eq_self.mpr
  intro c hc
  obtain ⟨d, hd, hcd⟩ := h c hc
  simp [hcd, digitChar_ne_K d hd]

theorem plus_notin_digits (cs : List Char)
    (h : ∀ c ∈ cs, ∃ d, d < 10 ∧ c = digitChar d) : '+' ∉ cs := by
  intro hm
  obtain ⟨d, hd, hcd⟩ := h '+' hm
  exact digitChar_ne_plus d hd hcd.symm

theorem pad3_ne_nil (n : ℕ) : pad3 n ≠ [] := by
  unfold pad3
  intro hcontra
  rcases List.append_eq_nil.mp hcontra with ⟨_, h2⟩
  exact natDigits_ne_nil n h2

/-- Evaluation of `parse_chainage` on a well-formed label
`K<digits>+<digits>`. -/
theorem parse_chainage_mk (ds1 ds2 : List Char)
    (h1 : ∀ c ∈ ds1, ∃ d, d < 10 ∧ c = digitChar d)
    (h2 : ∀ c ∈ ds2, ∃ d, d < 10 ∧ c = digitChar d)
    (hne1 : ds1 ≠ []) (m1 m2 : ℕ)
    (hv1 : digitsToNat ds1 = some m1) (hv2 : digitsToNat ds2 = some m2) :
    parse_chainage (String.mk ('K' :: (ds1 ++ '+' :: ds2)))
      = some (((m1 : ℤ) * 1000 + (m2 : ℤ) : ℤ) : ℚ) := by
  have hne2 : ds2 ≠ [] := by
    intro hcontra
    rw [hcontra] at hv2
    simp [digitsToNat] at hv2
  unfold parse_chainage
  have hmap : ('K' :: (ds1 ++ '+' :: ds2)).map Char.toUpper
      = 'K' :: (ds1 ++ '+' :: ds2) := by
    rw [List.map_cons, List.map_append, List.map_cons,
      map_toUpper_of_digits ds1 h1, map_toUpper_of_digits ds2 h2]
    rfl
  have hfilter : ('K' :: (ds1 ++ '+' :: ds2)).filter (fun c => c ≠ 'K')
      = ds1 ++ '+' :: ds2 := by
    rw [List.filter_cons_of_neg (by simp), List.filter_append,
      List.filter_cons_of_pos (by simp), filter_ne_K_of_digits ds1 h1,
      filter_ne_K_of_digits ds2 h2]
  have hsplit : splitPlus (ds1 ++ '+' :: ds2) = [ds1, ds2] := by
    rw [splitPlus_append ds1 ds2 (plus_notin_digits ds1 h1),
      splitPlus_no_plus ds2 (plus_notin_digits ds2 h2)]
  have hdata : (String.mk ('K' :: (ds1 ++ '+' :: ds2))).data
      = 'K' :: (ds1 ++ '+' :: ds2) := rfl
  rw [hdata, hmap, hfilter]
  simp only [hsplit, List.getElem?_cons_zero, List.getElem?_cons_succ,
    pyInt_of_digits ds1 m1 hne1 h1 hv1,
    pyInt_of_digits ds2 m2 hne2 h2 hv2]

/-- C5 core: `parse_chainage` recovers exactly the integer `format_chainage`
rounded to, for every rounded value `≥ 0`. -/
theorem parse_format_eq (d : ℚ) (h : 0 ≤ d) :
    parse_chainage (format_chainage d) = some ((pyRound d : ℤ) : ℚ) := by
  have hn : 0 ≤ pyRound d := pyRound_nonneg d h
  have hkm : 0 ≤ Int.ediv (pyRound d) 1000 :=
    Int.ediv_nonneg hn (by norm_num)
  have hrest : 0 ≤ Int.emod (pyRound d) 1000 :=
    Int.emod_nonneg (pyRound d) (by norm_num)
  have hfmt : format_chainage d
      = String.mk ('K' :: (natDigits (Int.ediv (pyRound d) 1000).toNat
          ++ '+' :: pad3 (Int.emod (pyRound d) 1000).toNat)) := by
    unfold format_chainage intDigits
    rw [if_neg (by omega : ¬ Int.ediv (pyRound d) 1000 < 0)]
  rw [hfmt, parse_chainage_mk _ _ (natDigits_mem _) (pad3_mem _)
    (natDigits_ne_nil _) _ _ (digitsToNat_natDigits _) (digitsToNat_pad3 _)]
  have h1 : ((Int.ediv (pyRound d) 1000).toNat : ℤ)
      = Int.ediv (pyRound d) 1000 := Int.toNat_of_nonneg hkm
  have h2 : ((Int.emod (pyRound d) 1000).toNat : ℤ)
      = Int.emod (pyRound d) 1000 := Int.toNat_of_nonneg hrest
  have hz : ((Int.ediv (pyRound d) 1000).toNat : ℤ) * 1000
      + ((Int.emod (pyRound d) 1000).toNat : ℤ) = pyRound d := by
    rw [h1, h2]
    have hdm : 1000 * Int.ediv (pyRound d) 1000
        + Int.emod (pyRound d) 1000 = pyRound d :=
      Int.ediv_add_emod (pyRound d) 1000
    linarith
  rw [hz]

/-- Rewrites `format_chainage` once the rounded value is known; the
remaining computation is integer/character arithmetic the kernel can run. -/
theorem format_chainage_of_pyRound (d : ℚ) (n : ℤ) (h : pyRound d = n) :
    format_chainage d = String.mk ('K' :: (intDigits (Int.ediv n 1000)
      ++ '+' :: pad3 (Int.emod n 1000).toNat)) := by
  unfold format_chainage
  rw [h]

/-- Python floor division by 1000 (`divmod`) agrees with the mathematical
floor of the rational quotient. -/
theorem ediv_1000_eq_floor (n : ℤ) :
    Int.ediv n 1000 = ⌊((n : ℤ) : ℚ) / 1000⌋ := by
  have hdm : 1000 * Int.ediv n 1000 + Int.emod n 1000 = n :=
    Int.ediv_add_emod n 1000
  have h0 : 0 ≤ Int.emod n 1000 := Int.emod_nonneg n (by norm_num)
  have h1 : Int.emod n 1000 < 1000 := Int.emod_lt_of_pos n (by norm_num)
  symm
  rw [Int.floor_eq_iff]
  constructor
  · rw [le_div_iff₀ (by norm_num : (0:ℚ) < 1000)]
    have hle : Int.ediv n 1000 * 1000 ≤ n := by linarith
    exact_mod_cast hle
  · rw [div_lt_iff₀ (by norm_num : (0:ℚ) < 1000)]
    have hlt : n < (Int.ediv n 1000 + 1) * 1000 := by linarith
    exact_mod_cast hlt

theorem clampParam_nonneg (s : Seg) (p : Pt) : 0 ≤ clampParam s p := by
  unfold clampParam
  split
  · exact le_refl 0
  · exact le_max_left 0 _

theorem clampParam_le_one (s : Seg) (p : Pt) : clampParam s p ≤ 1 := by
  unfold clampParam
  split
  · exact zero_le_one
  · exact max_le zero_le_one (min_le_left 1 _)

theorem clamp01_of_nonpos (r : ℚ) (h : r ≤ 0) : max 0 (min 1 r) = 0 := by
  rw [max_eq_left]
  exact le_trans (min_le_right 1 r) h

theorem clamp01_of_ge_one (r : ℚ) (h : 1 ≤ r) : max 0 (min 1 r) = 1 := by
  rw [min_eq_left h]
  exact max_eq_right zero_le_one

/-- C7. The along-line distance the projection sweep produces — the sum
of the full segment lengths before the selected segment plus the clamped
fraction of the selected one — lies in `[0, alignment_length]` for every
point, every alignment and every (real) assignment of segment lengths
consistent with the squared lengths of the vertices; and on the
alignment `(0,0)-(10000,0)` the point `x = -100` selects the first
segment with parameter `0` (chainage 0) while `x = 10100` selects it
with parameter `1` (chainage = full length). -/
theorem projection_chainage_clamped :
    (∀ (vs : List Pt) (p : Pt) (lens : List ℝ),
      (∀ x ∈ lens, 0 ≤ x) →
      (∀ j, j < lens.length →
        (lens.getD j 0)^2 = ((segLenSq ((segsOf vs).getD j ⟨p, p⟩) : ℚ) : ℝ)) →
      0 ≤ (lens.take (bestIdx (segsOf vs) p)).sum
          + ((bestT (segsOf vs) p : ℚ) : ℝ)
            * lens.getD (bestIdx (segsOf vs) p) 0
      ∧ (lens.take (bestIdx (segsOf vs) p)).sum
          + ((bestT (segsOf vs) p : ℚ) : ℝ)
            * lens.getD (bestIdx (segsOf vs) p) 0
        ≤ lens.sum)
    ∧ bestIdx (segsOf [⟨0,0⟩, ⟨10000,0⟩]) ⟨-100, 0⟩ = 0
    ∧ bestT (segsOf [⟨0,0⟩, ⟨10000,0⟩]) ⟨-100, 0⟩ = 0
    ∧ bestIdx (segsOf [⟨0,0⟩, ⟨10000,0⟩]) ⟨10100, 0⟩ = 0
    ∧ bestT (segsOf [⟨0,0⟩, ⟨10000,0⟩]) ⟨10100, 0⟩ = 1 := by
  refine ⟨?_, rfl, ?_, rfl, ?_⟩
  · intro vs p lens hpos _hsq
    have ht0 : (0:ℚ) ≤ bestT (segsOf vs) p := clampParam_nonneg _ _
    have ht1 : bestT (segsOf vs) p ≤ 1 := clampParam_le_one _ _
    have htR0 : (0:ℝ) ≤ ((bestT (segsOf vs) p : ℚ) : ℝ) := by
      exact_mod_cast ht0
    have htR1 : ((bestT (segsOf vs) p : ℚ) : ℝ) ≤ 1 := by
      exact_mod_cast ht1
    have hd0 : (0:ℝ) ≤ lens.getD (bestIdx (segsOf vs) p) 0 := by
      by_cases hj : bestIdx (segsOf vs) p < lens.length
      · rw [List.getD_eq_getElem lens 0 hj]
        exact hpos _ (List.getElem_mem hj)
      · rw [List.getD_eq_default lens 0 (le_of_not_lt hj)]
    have htake0 : (0:ℝ) ≤ (lens.take (bestIdx (segsOf vs) p)).sum :=
      List.sum_nonneg (fun x hx => hpos x (List.mem_of_mem_take hx))
    constructor
    · exact add_nonneg htake0 (mul_nonneg htR0 hd0)
    · have hmul : ((bestT (segsOf vs) p : ℚ) : ℝ)
          * lens.getD (bestIdx (segsOf vs) p) 0
          ≤ lens.getD (bestIdx (segsOf vs) p) 0 :=
        mul_le_of_le_one_left hd0 htR1
      have hstep : (lens.take (bestIdx (segsOf vs) p)).sum
          + lens.getD (bestIdx (segsOf vs) p) 0 ≤ lens.sum := by
        by_cases hj : bestIdx (segsOf vs) p < lens.length
        · have hsplit : (lens.take (bestIdx (segsOf vs) p)).sum
              + (lens.drop (bestIdx (segsOf vs) p)).sum = lens.sum := by
            rw [← List.sum_append, List.take_append_drop]
          have hdrop : lens.drop (bestIdx (segsOf vs) p)
              = lens.getD (bestIdx (segsOf vs) p) 0
                :: lens.drop (bestIdx (segsOf vs) p + 1) := by
            rw [List.getD_eq_getElem lens 0 hj]
            exact List.drop_eq_getElem_cons hj
          have hrest : (0:ℝ) ≤ (lens.drop (bestIdx (segsOf vs) p + 1)).sum :=
            List.sum_nonneg (fun x hx => hpos x (List.mem_of_mem_drop hx))
          have hdsum : lens.getD (bestIdx (segsOf vs) p) 0
              ≤ (lens.drop (bestIdx (segsOf vs) p)).sum := by
            rw [hdrop, List.sum_cons]
            linarith
          linarith
        · rw [List.getD_eq_default lens 0 (le_of_not_lt hj),
            List.take_of_length_le (le_of_not_lt hj)]
          simp
      linarith
  · show clampParam ⟨⟨0,0⟩, ⟨10000,0⟩⟩ ⟨-100, 0⟩ = 0
    unfold clampParam
    rw [if_neg (by norm_num [segLenSq])]
    exact clamp01_of_nonpos _ (by norm_num [segLenSq])
  · show clampParam ⟨⟨0,0⟩, ⟨10000,0⟩⟩ ⟨10100, 0⟩ = 1
    unfold clampParam
    rw [if_neg (by norm_num [segLenSq])]
    exact clamp01_of_ge_one _ (by norm_num [segLenSq])

/-- C7 witness: the bounds applied to the single-segment alignment
`(0,0)-(10000,0)` (length 10000) and the point `(-100, 0)`. -/
theorem projection_chainage_clamped_witness :
    0 ≤ ([(10000:ℝ)].take (bestIdx (segsOf [⟨0,0⟩, ⟨10000,0⟩]) ⟨-100, 0⟩)).sum
        + ((bestT (segsOf [⟨0,0⟩, ⟨10000,0⟩]) ⟨-100, 0⟩ : ℚ) : ℝ)
          * [(10000:ℝ)].getD (bestIdx (segsOf [⟨0,0⟩, ⟨10000,0⟩]) ⟨-100, 0⟩) 0
    ∧ ([(10000:ℝ)].take (bestIdx (segsOf [⟨0,0⟩, ⟨10000,0⟩]) ⟨-100, 0⟩)).sum
        + ((bestT (segsOf [⟨0,0⟩, ⟨10000,0⟩]) ⟨-100, 0⟩ : ℚ) : ℝ)
          * [(10000:ℝ)].getD (bestIdx (segsOf [⟨0,0⟩, ⟨10000,0⟩]) ⟨-100, 0⟩) 0
        ≤ [(10000:ℝ)].sum := by
  apply projection_chainage_clamped.1
  · intro x hx
    rw [List.mem_singleton] at hx
    rw [hx]
    norm_num
  · intro j hj
    rw [List.length_singleton] at hj
    interval_cases j
    show ((10000:ℝ))^2 = ((segLenSq ⟨⟨0,0⟩, ⟨10000,0⟩⟩ : ℚ) : ℝ)
    rw [show segLenSq ⟨⟨0,0⟩, ⟨10000,0⟩⟩ = 100000000 by norm_num [segLenSq]]
    norm_num

/-- C1. The spec claims `format_chainage` rounds ties away from zero, so
that `format(5250.5) = "K5+251"`; the repository's own test
`test_format_chainage_rounding_up` asserts the same.  The code instead
applies Python `round`, which rounds half to even: at the failing input
`5250.5` (= 10501/2, exactly representable as a float) it produces
`"K5+250"`, not the asserted `"K5+251"`.  (`format(5250.49) = "K5+250"`
does hold.) -/
theorem format_chainage_tie_bug :
    format_chainage ((10501 : ℚ)/2) = "K5+250" ∧
    format_chainage ((525049 : ℚ)/100) = "K5+250" ∧
    "K5+250" ≠ "K5+251" := by
  refine ⟨?_, ?_, by decide⟩
  · have hpy : pyRound ((10501 : ℚ)/2) = 5250 := by
      rw [pyRound_tie ((10501 : ℚ)/2) 5250 (by norm_num)]
      decide
    rw [format_chainage_of_pyRound _ 5250 hpy]
    decide
  · have hpy : pyRound ((525049 : ℚ)/100) = 5250 := by
      apply pyRound_eq_of_lt_half ((525049 : ℚ)/100) 5250 <;> norm_num
    rw [format_chainage_of_pyRound _ 5250 hpy]
    decide

/-- C5. Round-trip law: for every distance `d ≥ 0`,
`parse_chainage (format_chainage d)` returns exactly `round(d)` (the
Python-rounded distance, as the float the code produces); formatting is
lossy to the nearest meter, not exact on fractional inputs. -/
theorem parse_format_roundtrip (d : ℚ) (h : 0 ≤ d) :
    parse_chainage (format_chainage d) = some ((pyRound d : ℤ) : ℚ) :=
  parse_format_eq d h

/-- C5 witness: the round-trip law applied at the concrete distance 11795. -/
theorem parse_format_roundtrip_witness :
    (0 : ℚ) ≤ 11795 ∧
    parse_chainage (format_chainage (11795 : ℚ))
      = some ((pyRound (11795 : ℚ) : ℤ) : ℚ) :=
  ⟨by norm_num, parse_format_roundtrip (11795 : ℚ) (by norm_num)⟩

/-- C10. For negative input (undefined in the spec), `format_chainage`
still returns a value: `divmod` floors toward negative infinity, the
remainder lies in `[0, 1000)`, and the rendered label is
`"K{q}+{r:03d}"` with `q = ⌊round(d)/1000⌋`; in particular
`format_chainage (-1) = "K-1+999"`. -/
theorem format_chainage_negative (d : ℚ) (_h : d < 0) :
    Int.ediv (pyRound d) 1000 = ⌊((pyRound d : ℤ) : ℚ) / 1000⌋ ∧
    0 ≤ Int.emod (pyRound d) 1000 ∧
    Int.emod (pyRound d) 1000 < 1000 ∧
    format_chainage d
      = String.mk ('K' :: (intDigits ⌊((pyRound d : ℤ) : ℚ) / 1000⌋
          ++ '+' :: pad3 (Int.emod (pyRound d) 1000).toNat)) ∧
    format_chainage (-1 : ℚ) = "K-1+999" := by
  refine ⟨ediv_1000_eq_floor (pyRound d),
    Int.emod_nonneg (pyRound d) (by norm_num),
    Int.emod_lt_of_pos (pyRound d) (by norm_num), ?_, ?_⟩
  · rw [← ediv_1000_eq_floor]
    rfl
  · have hpy : pyRound (-1 : ℚ) = -1 := by
      apply pyRound_eq_of_lt_half (-1 : ℚ) (-1) <;> norm_num
    rw [format_chainage_of_pyRound _ (-1) hpy]
    decide

/-- C10 witness: the negative-input description applied at `d = -1`. -/
theorem format_chainage_negative_witness :
    (-1 : ℚ) < 0 ∧ format_chainage (-1 : ℚ) = "K-1+999" :=
  ⟨by norm_num, (format_chainage_negative (-1 : ℚ) (by norm_num)).2.2.2.2⟩

theorem genDistances_nonpos_interval (L i : ℚ) (hi : i ≤ 0) :
    ∀ (fuel : ℕ) (s : ℚ), s ≤ L → genDistances L i s fuel = none := by
  intro fuel
  induction fuel with
  | zero => intro s _; rfl
  | succ fuel ih =>
      intro s hs
      rw [show genDistances L i s (fuel + 1)
          = if s ≤ L then
              (genDistances L i (s + i) fuel).map (fun rest => s :: rest)
            else some [] from rfl]
      rw [if_pos hs, ih (s + i) (by linarith)]
      rfl

theorem numMarkers_succ (L i s : ℚ) (hi : 0 < i) (hs : s ≤ L) :
    numMarkers L i s = numMarkers L i (s + i) + 1 := by
  unfold numMarkers
  rw [if_pos hs]
  by_cases h2 : s + i ≤ L
  · rw [if_pos h2]
    have key : ⌊(L - s)/i⌋ = ⌊(L - (s + i))/i⌋ + 1 := by
      have hstep : (L - s)/i = (L - (s + i))/i + 1 := by
        field_simp
        ring
      rw [hstep, Int.floor_add_one]
    have hnn : 0 ≤ ⌊(L - (s + i))/i⌋ :=
      Int.le_floor.mpr (by
        simpa using div_nonneg (by linarith : (0:ℚ) ≤ L - (s + i)) hi.le)
    omega
  · rw [if_neg h2]
    have hz : ⌊(L - s)/i⌋ = 0 := by
      rw [Int.floor_eq_zero_iff]
      constructor
      · exact div_nonneg (by linarith) hi.le
      · rw [div_lt_one hi]
        linarith
    simp [hz]

theorem markerList_cons (L i s : ℚ) (hi : 0 < i) (hs : s ≤ L) :
    markerList L i s = s :: markerList L i (s + i) := by
  unfold markerList
  rw [numMarkers_succ L i s hi hs, List.range_succ_eq_map]
  simp only [List.map_cons, List.map_map, Nat.cast_zero, zero_mul, add_zero]
  congr 1
  apply List.map_congr_left
  intro a _
  simp only [Function.comp_apply]
  push_cast
  ring

theorem markerList_of_gt (L i s : ℚ) (hs : ¬ s ≤ L) :
    markerList L i s = [] := by
  unfold markerList numMarkers
  rw [if_neg hs]
  rfl

theorem genDistances_eq_markerList (L i : ℚ) (hi : 0 < i) :
    ∀ (fuel : ℕ) (s : ℚ), numMarkers L i s < fuel →
      genDistances L i s fuel = some (markerList L i s) := by
  intro fuel
  induction fuel with
  | zero => intro s h; omega
  | succ fuel ih =>
      intro s hlt
      by_cases hs : s ≤ L
      · have hrec : numMarkers L i (s + i) < fuel := by
          have := numMarkers_succ L i s hi hs
          omega
        rw [show genDistances L i s (fuel + 1)
            = if s ≤ L then
                (genDistances L i (s + i) fuel).map (fun rest => s :: rest)
              else some [] from rfl]
        rw [if_pos hs, ih (s + i) hrec, markerList_cons L i s hi hs]
        rfl
      · simp only [genDistances, if_neg hs, markerList_of_gt L i s hs]

theorem markerList_getLast (L i s : ℚ) (hs : s ≤ L) :
    (markerList L i s).getLast?
      = some (s + ((⌊(L - s) / i⌋).toNat : ℚ) * i) := by
  unfold markerList numMarkers
  rw [if_pos hs, List.range_succ, List.map_append]
  simp

theorem numMarkers_eval_10000 : numMarkers 10000 500 0 = 21 := by
  unfold numMarkers
  rw [if_pos (by norm_num : (0:ℚ) ≤ 10000)]
  rw [show ((10000:ℚ) - 0) / 500 = ((20:ℤ) : ℚ) by norm_num,
    Int.floor_intCast]
  rfl

theorem numMarkers_eval_2500 : numMarkers 2500 1000 0 = 3 := by
  unfold numMarkers
  rw [if_pos (by norm_num : (0:ℚ) ≤ 2500)]
  have hfl : ⌊((2500:ℚ) - 0) / 1000⌋ = 2 := by
    rw [Int.floor_eq_iff]
    constructor <;> norm_num
  rw [hfl]
  rfl

theorem format_chainage_zero : format_chainage 0 = "K0+000" := by
  have hpy : pyRound (0 : ℚ) = 0 :=
    pyRound_eq_of_lt_half 0 0 (by norm_num) (by norm_num)
  rw [format_chainage_of_pyRound _ 0 hpy]
  decide

theorem format_chainage_10000 : format_chainage 10000 = "K10+000" := by
  have hpy : pyRound (10000 : ℚ) = 10000 :=
    pyRound_eq_of_lt_half 10000 10000 (by norm_num) (by norm_num)
  rw [format_chainage_of_pyRound _ 10000 hpy]
  decide

/-- C2. The spec demands that `generate_chainage_points` reject a
non-positive `interval_m` with an InvalidParameter error before entering
the generation loop.  The code performs no such check: with
`interval_m = 0` (and also negative intervals) on a line of length 100
starting at 0, the `while distance <= total_length` loop never
terminates — for every fuel bound the loop is still running (`none`) —
instead of raising. -/
theorem generate_chainage_nonpos_interval_bug :
    (∀ fuel : ℕ, genDistances 100 0 0 fuel = none) ∧
    (∀ fuel : ℕ, genDistances 100 (-5) 0 fuel = none) := by
  constructor
  · intro fuel
    exact genDistances_nonpos_interval 100 0 (le_refl 0) fuel 0 (by norm_num)
  · intro fuel
    exact genDistances_nonpos_interval 100 (-5) (by norm_num) fuel 0
      (by norm_num)

/-- C6. For every positive interval the loop terminates and emits exactly
`start_m, start_m + interval_m, start_m + 2*interval_m, …` while
`distance ≤ total_length` (the closed form `markerList`); the final
emitted distance equals the total length exactly when the length minus
the start is a natural multiple of the interval (no endpoint marker is
force-emitted otherwise); length 10000 at interval 500 gives 21 markers
running from distance 0 (label `"K0+000"`) to 10000 (label `"K10+000"`),
and length 2500 at interval 1000 gives 3 markers. -/
theorem generate_chainage_points_contract :
    (∀ (L i s : ℚ), 0 < i →
        genDistances L i s (numMarkers L i s + 1) = some (markerList L i s))
    ∧ (∀ (L i s : ℚ), 0 < i → s ≤ L →
        ((markerList L i s).getLast? = some L ↔
          ∃ k : ℕ, L - s = (k : ℚ) * i))
    ∧ (markerList 10000 500 0).length = 21
    ∧ (markerList 10000 500 0).head? = some 0
    ∧ (markerList 10000 500 0).getLast? = some 10000
    ∧ format_chainage 0 = "K0+000"
    ∧ format_chainage 10000 = "K10+000"
    ∧ (markerList 2500 1000 0).length = 3 := by
  refine ⟨?_, ?_, ?_, ?_, ?_, format_chainage_zero, format_chainage_10000, ?_⟩
  · intro L i s hi
    exact genDistances_eq_markerList L i hi _ s (by omega)
  · intro L i s hi hs
    have hm := markerList_getLast L i s hs
    constructor
    · intro hlast
      rw [hm] at hlast
      have heq := Option.some.inj hlast
      exact ⟨(⌊(L - s)/i⌋).toNat, by linarith⟩
    · rintro ⟨k, hk⟩
      have hdiv : (L - s)/i = (k : ℚ) := by
        rw [div_eq_iff (ne_of_gt hi)]
        exact hk
      rw [hm, hdiv, Int.floor_natCast, Int.toNat_natCast,
        show s + (k : ℚ) * i = L by linarith]
  · unfold markerList
    rw [numMarkers_eval_10000]
    simp
  · unfold markerList
    rw [numMarkers_eval_10000, List.range_succ_eq_map]
    simp
  · have hm := markerList_getLast 10000 500 0 (by norm_num)
    rw [hm, show ((10000:ℚ) - 0)/500 = ((20:ℤ) : ℚ) by norm_num,
      Int.floor_intCast]
    norm_num
    rw [show Int.toNat 20 = 20 from rfl]
    norm_num
  · unfold markerList
    rw [numMarkers_eval_2500]
    simp

/-- C6 witness: the loop evaluated on the 10 km / 500 m instance. -/
theorem generate_chainage_points_contract_witness :
    genDistances 10000 500 0 (numMarkers 10000 500 0 + 1)
      = some (markerList 10000 500 0) :=
  generate_chainage_points_contract.1 10000 500 0 (by norm_num)

/-- C3. The spec claims `parse_chainage` raises exactly when the `K`
prefix or `+` separator is absent, a part is non-numeric, or the split
does not yield exactly two parts, and the repository's own test asserts
`parse_chainage("5+250")` raises.  The code uppercases, deletes every
`K`, splits on `+` and reads only the first two parts: `"5+250"`
(missing prefix) parses successfully to `5250.0`, and the three-part
`"K5+250+750"` also parses to `5250.0` with the third part silently
ignored.  Only a missing separator or a non-numeric part raises
(`"K5"`, `"invalid"`). -/
theorem parse_chainage_lenient_bug :
    parse_chainage "5+250" = some ((5250 : ℤ) : ℚ)
    ∧ parse_chainage "K5+250+750" = some ((5250 : ℤ) : ℚ)
    ∧ parse_chainage "K5" = none
    ∧ parse_chainage "invalid" = none := by
  refine ⟨?_, ?_, ?_, ?_⟩ <;> decide

/-- C8 counterexample: a feature whose source name is the empty string
(not null: `pd.isna("") == False`) is annotated with the empty name, so
the produced name field is NOT never-empty as claimed. -/
theorem annotate_name_empty_counterexample :
    annotateNames [NameVal.str ""] = [""] ∧ ("" : String).length = 0 := by
  constructor
  · rfl
  · rfl

/-- C8 amended: the name is `"sin_nombre"` exactly when the source name
is missing or null (so it is never null/undefined in the output), and a
non-null string — including the empty string — passes through verbatim;
the `[None, NaN, "Valid"]` batch yields
`["sin_nombre", "sin_nombre", "Valid"]`. -/
theorem annotate_name_fallback :
    resolveName NameVal.missing = "sin_nombre"
    ∧ resolveName NameVal.null = "sin_nombre"
    ∧ (∀ s, resolveName (NameVal.str s) = s)
    ∧ annotateNames [NameVal.null, NameVal.null, NameVal.str "Valid"]
        = ["sin_nombre", "sin_nombre", "Valid"] := by
  exact ⟨rfl, rfl, fun s => rfl, rfl⟩

/-- C4 counterexample: the sort contract the code requests does not
preserve the input order of tied rows — for the two tied rows below, the
reversed output satisfies everything `sort_values(kind='quicksort')`
guarantees, yet differs from the stable (input-order-preserving)
result. -/
theorem sort_quicksort_not_stable :
    SortValuesResult [⟨5, 0⟩, ⟨5, 1⟩] [⟨5, 1⟩, ⟨5, 0⟩]
    ∧ ([⟨5, 1⟩, ⟨5, 0⟩] : List Row) ≠ [⟨5, 0⟩, ⟨5, 1⟩] := by
  refine ⟨⟨List.Perm.swap _ _ _, ?_⟩, ?_⟩
  · rw [List.chain'_cons]
    exact ⟨le_refl _, List.chain'_singleton _⟩
  · intro h
    have h2 := congrArg (List.map Row.tag) h
    simp at h2

/-- C4 amended: `sort_by_chainage` returns a permutation of the records
sorted ascending by `chainage_m` with the index reset to positions
`0,1,2,…`; tie order is unspecified (pandas default quicksort is not
stable).  Such an output always exists, and on the spec's example —
distinct chainages `[8000, 2000, 5000]` — the chainage sequence of any
conforming output is uniquely `[2000, 5000, 8000]`. -/
theorem sort_by_chainage_sorted :
    (∀ inp : List Row, ∃ outp, SortValuesResult inp outp)
    ∧ (∀ outp, SortValuesResult [⟨8000, 0⟩, ⟨2000, 1⟩, ⟨5000, 2⟩] outp →
        outp.map Row.chainage = [2000, 5000, 8000]) := by
  haveI : IsTrans Row (fun a b => a.chainage ≤ b.chainage) :=
    ⟨fun _ _ _ hab hbc => le_trans hab hbc⟩
  haveI : IsTotal Row (fun a b => a.chainage ≤ b.chainage) :=
    ⟨fun a b => le_total a.chainage b.chainage⟩
  constructor
  · intro inp
    refine ⟨inp.insertionSort (fun a b => a.chainage ≤ b.chainage),
      List.perm_insertionSort _ inp, ?_⟩
    rw [List.chain'_iff_pairwise]
    exact List.sorted_insertionSort _ inp
  · rintro outp ⟨hperm, hchain⟩
    have hexp : SortValuesResult [⟨8000, 0⟩, ⟨2000, 1⟩, ⟨5000, 2⟩]
        [⟨2000, 1⟩, ⟨5000, 2⟩, ⟨8000, 0⟩] := by
      constructor
      · exact List.perm_append_singleton (⟨8000, 0⟩ : Row)
          [⟨2000, 1⟩, ⟨5000, 2⟩]
      · rw [List.chain'_cons, List.chain'_cons]
        refine ⟨by norm_num, by norm_num, List.chain'_singleton _⟩
    have hp : (outp.map Row.chainage).Perm
        (([⟨2000, 1⟩, ⟨5000, 2⟩, ⟨8000, 0⟩] : List Row).map Row.chainage) :=
      (hperm.trans hexp.1.symm).map Row.chainage
    have hs1 : (outp.map Row.chainage).Sorted (· ≤ ·) :=
      List.chain'_iff_pairwise.mp ((List.chain'_map _).mpr hchain)
    have hs2 : ((([⟨2000, 1⟩, ⟨5000, 2⟩, ⟨8000, 0⟩] : List Row)).map
        Row.chainage).Sorted (· ≤ ·) :=
      List.chain'_iff_pairwise.mp ((List.chain'_map _).mpr hexp.2)
    exact List.eq_of_perm_of_sorted hp hs1 hs2

/-- C4 witness: the unique-result direction applied to the conforming
output itself. -/
theorem sort_by_chainage_sorted_witness :
    ([⟨2000, 1⟩, ⟨5000, 2⟩, ⟨8000, 0⟩] : List Row).map Row.chainage
      = [2000, 5000, 8000] := by
  apply sort_by_chainage_sorted.2
  constructor
  · exact List.perm_append_singleton (⟨8000, 0⟩ : Row)
      [⟨2000, 1⟩, ⟨5000, 2⟩]
  · rw [List.chain'_cons, List.chain'_cons]
    exact ⟨by norm_num, by norm_num, List.chain'_singleton _⟩

/-- C9. `to_single_line` returns a single-part line unchanged; merges
end-to-end chaining parts into one polyline preserving vertex order
(`[(0,0)-(1,1)]` and `[(1,1)-(2,0)]` become the 3-vertex line); falls
back to concatenating all parts' vertices in the given order when the
parts cannot be merged (`[(0,0)-(1,1)]` and `[(2,2)-(3,3)]` become a
4-vertex line); and raises `TypeError` on points and polygons. -/
theorem to_single_line_spec :
    (∀ vs, to_single_line (Geom.line vs) = Except.ok vs)
    ∧ to_single_line (Geom.multiLine [[⟨0,0⟩, ⟨1,1⟩], [⟨1,1⟩, ⟨2,0⟩]])
        = Except.ok [⟨0,0⟩, ⟨1,1⟩, ⟨2,0⟩]
    ∧ to_single_line (Geom.multiLine [[⟨0,0⟩, ⟨1,1⟩], [⟨2,2⟩, ⟨3,3⟩]])
        = Except.ok [⟨0,0⟩, ⟨1,1⟩, ⟨2,2⟩, ⟨3,3⟩]
    ∧ (∀ p, to_single_line (Geom.point p) = Except.error "TypeError")
    ∧ (∀ vs, to_single_line (Geom.polygon vs) = Except.error "TypeError") := by
  refine ⟨fun vs => rfl, ?_, ?_, fun p => rfl, fun vs => rfl⟩
  · have hmerge : chainMerge [[⟨0,0⟩, ⟨1,1⟩], [⟨1,1⟩, ⟨2,0⟩]]
        = some [⟨0,0⟩, ⟨1,1⟩, ⟨2,0⟩] := by
      have hcond : ([⟨0,0⟩, ⟨1,1⟩] : List Pt).getLast?
          = ([⟨1,1⟩, ⟨2,0⟩] : List Pt).head? := rfl
      rw [chainMerge, if_pos hcond]
      show chainMerge [[⟨0,0⟩, ⟨1,1⟩, ⟨2,0⟩]] = some [⟨0,0⟩, ⟨1,1⟩, ⟨2,0⟩]
      rw [chainMerge]
    show (match chainMerge [[⟨0,0⟩, ⟨1,1⟩], [⟨1,1⟩, ⟨2,0⟩]] with
      | some merged => Except.ok merged
      | none => Except.ok ([[⟨0,0⟩, ⟨1,1⟩], [⟨1,1⟩, ⟨2,0⟩]] : List (List Pt)).flatten)
        = Except.ok [⟨0,0⟩, ⟨1,1⟩, ⟨2,0⟩]
    rw [hmerge]
  · have hmerge : chainMerge [[⟨0,0⟩, ⟨1,1⟩], [⟨2,2⟩, ⟨3,3⟩]] = none := by
      rw [chainMerge, if_neg]
      intro hcontra
      have h1 : (([⟨0,0⟩, ⟨1,1⟩] : List Pt).getLast?) = some ⟨1,1⟩ := rfl
      have h2 : (([⟨2,2⟩, ⟨3,3⟩] : List Pt).head?) = some ⟨2,2⟩ := rfl
      rw [h1, h2] at hcontra
      have h3 : (⟨1,1⟩ : Pt) = ⟨2,2⟩ := Option.some.inj hcontra
      have h4 : (1 : ℚ) = 2 := congrArg Pt.x h3
      norm_num at h4
    show (match chainMerge [[⟨0,0⟩, ⟨1,1⟩], [⟨2,2⟩, ⟨3,3⟩]] with
      | some merged => Except.ok merged
      | none => Except.ok ([[⟨0,0⟩, ⟨1,1⟩], [⟨2,2⟩, ⟨3,3⟩]] : List (List Pt)).flatten)
        = Except.ok [⟨0,0⟩, ⟨1,1⟩, ⟨2,2⟩, ⟨3,3⟩]
    rw [hmerge]
    rfl

end Corridor
